import Mathlib

/-!
# Verification of the agentlens indexing-and-retrieval engine

Shallow embedding of the core of the `agentlens` repository
(`src/search/`): the chunk/document store (`store/gob.rs`,
`store/mod.rs`), the hybrid ranking layer (`hybrid.rs`), the chunker
(`chunker.rs`), the indexer (`indexer.rs`) and the embedding provider's
health-check decision (`embedder/ollama.rs`).

Modelling conventions:
- Rust `f32` arithmetic is idealised as exact arithmetic: the scalar is
  `ℚ` wherever the code only uses field operations and comparisons
  (hybrid ranking), and `ℝ` where a square root occurs
  (`cosine_similarity` and the store's vector search).
- `HashMap<String, V>` is modelled as an association list with unique
  keys; insertion replaces the entry with the same key, iteration order
  is the list order (the code's `HashMap` iteration order is arbitrary;
  no claim depends on it).
- Stateful store methods (which in the code take the `RwLock` for their
  whole body, so each is one atomic transition) become pure functions
  `IndexData → IndexData`.
- Fallible operations become `Except`/`Option`; external effects
  (file system, network, clock) become explicit inputs.
- `chrono` timestamps are opaque to every claim and are modelled as `ℕ`.
-/

/-- `ChunkType` from `store/types.rs`. -/
inductive ChunkType where
  | function
  | «class»
  | method
  | module
  | fileHeader
  | block
  deriving DecidableEq, Repr

/-- `Chunk` from `store/types.rs`: the persisted fragment. -/
structure Chunk where
  id : String
  file_path : String
  start_line : ℕ
  end_line : ℕ
  content : String
  vector : List ℝ
  hash : String
  updated_at : ℕ
  chunk_type : ChunkType

/-- `Document` from `store/types.rs`: per-file bookkeeping. -/
structure Document where
  path : String
  hash : String
  mod_time : ℕ
  chunk_ids : List String

/-- `SearchResult` from `store/types.rs`, polymorphic in the score
scalar (`f32` in the code; `ℚ` for lexical/fused scores, `ℝ` for cosine
scores here). -/
structure SearchResult (α : Type) where
  chunk : Chunk
  score : α

/-- Association-list model of `HashMap<String, V>`: lookup of a key. -/
def hmLookup {α : Type} (m : List (String × α)) (k : String) : Option α :=
  (m.find? (fun p => p.1 = k)).map (fun p => p.2)

/-- `HashMap::remove`: drop the entry with the given key. -/
def hmRemove {α : Type} (m : List (String × α)) (k : String) : List (String × α) :=
  m.filter (fun p => p.1 ≠ k)

/-- `HashMap::insert`: replace the entry with the given key. -/
def hmInsert {α : Type} (m : List (String × α)) (k : String) (v : α) :
    List (String × α) :=
  hmRemove m k ++ [(k, v)]

/-- `IndexData` from `store/gob.rs`: the whole in-memory index. -/
structure IndexData where
  chunks : List (String × Chunk)
  documents : List (String × Document)

/-- `IndexData::default()`: both maps empty. -/
def IndexData.default : IndexData := { chunks := [], documents := [] }

/-- `cosine_similarity` from `store/mod.rs`.  The `f32` arithmetic is
idealised over `ℝ`; the single loop over `a.iter().zip(b.iter())`
accumulating `dot`, `norm_a`, `norm_b` is rendered as the three zipped
sums it computes. -/
noncomputable def cosine_similarity (a b : List ℝ) : ℝ :=
  if a.length ≠ b.length ∨ a = [] then 0
  else
    let dot := (List.zipWith (fun x y => x * y) a b).sum
    let norm_a := (List.zipWith (fun x _ => x * x) a b).sum
    let norm_b := (List.zipWith (fun _ y => y * y) a b).sum
    let denom := Real.sqrt norm_a * Real.sqrt norm_b
    if denom = 0 then 0 else dot / denom

/-- One insertion step of the stable descending sort: place `r` after
every earlier element whose score is at least `r`'s. -/
def insertDesc {α : Type} [LinearOrder α] (r : SearchResult α) :
    List (SearchResult α) → List (SearchResult α)
  | [] => [r]
  | x :: xs => if x.score ≤ r.score then r :: x :: xs else x :: insertDesc r xs

/-- Both `hybrid.rs` and `gob.rs` sort result lists with
`results.sort_by(|a, b| b.score.partial_cmp(&a.score).unwrap_or(Equal))`:
a stable descending sort by score (the scalar's order is total — no NaN
in the idealised arithmetic).  Rendered as the stable insertion sort,
which computes the same list as any stable descending sort. -/
def sortByScoreDesc {α : Type} [LinearOrder α] (rs : List (SearchResult α)) :
    List (SearchResult α) :=
  rs.foldr insertDesc []

/-- `GobStore::save_chunks`: upsert each chunk by its identity. -/
def save_chunks (d : IndexData) (cs : List Chunk) : IndexData :=
  { d with chunks := cs.foldl (fun m c => hmInsert m c.id c) d.chunks }

/-- `GobStore::save_document`: upsert the document by its path. -/
def save_document (d : IndexData) (doc : Document) : IndexData :=
  { d with documents := hmInsert d.documents doc.path doc }

/-- `GobStore::delete_by_file`: collect the identities of the chunks
whose `file_path` equals the given path, remove those identities from the
chunk map, and remove the document keyed by the path.  The whole method
holds the store's write lock, so it is a single state transition. -/
def delete_by_file (d : IndexData) (fp : String) : IndexData :=
  let idsToRemove := (d.chunks.filter (fun p => p.2.file_path = fp)).map (fun p => p.1)
  { chunks := d.chunks.filter (fun p => ¬ p.1 ∈ idsToRemove),
    documents := hmRemove d.documents fp }

/-- `GobStore::search`: score every stored chunk by cosine similarity
against the query vector, sort descending, truncate to `limit`. -/
noncomputable def GobStore.search (d : IndexData) (q : List ℝ) (limit : ℕ) :
    List (SearchResult ℝ) :=
  let results := d.chunks.map (fun p =>
    SearchResult.mk p.2 (cosine_similarity q p.2.vector))
  (sortByScoreDesc results).take limit

/-- `GobStore::load`, with the file system made explicit: `onDisk` is
`none` when `self.path` does not exist, `some none` when the snapshot
file exists but `serde_json` fails to deserialize it, and
`some (some d)` when it deserializes to `d`.  The in-memory state `mem`
is replaced wholesale on success and left untouched when there is no
snapshot. -/
def GobStore.load (onDisk : Option (Option IndexData)) (mem : IndexData) :
    Except String IndexData :=
  match onDisk with
  | none => Except.ok mem
  | some none => Except.error "deserialization error"
  | some (some d) => Except.ok d

/-- Rust `str::contains(&pat)`: `pat` occurs as a contiguous substring. -/
def strContains (s pat : String) : Bool :=
  s.toList.tails.any (fun t => pat.toList.isPrefixOf t)

/-- Rust `str::to_lowercase` as a character-wise lowering. -/
def strToLower (s : String) : String :=
  String.mk (s.toList.map Char.toLower)

/-- Split a character list at every separator character (empty pieces
between consecutive separators are kept, as with Rust `str::split`). -/
def chSplit (sep : Char → Bool) : List Char → List (List Char)
  | [] => [[]]
  | c :: cs =>
      match chSplit sep cs with
      | [] => [[]]
      | w :: ws => if sep c then [] :: w :: ws else (c :: w) :: ws

/-- Rust `str::split_whitespace`: split on whitespace, no empty pieces. -/
def splitWhitespace (s : String) : List String :=
  ((chSplit (fun c => c.isWhitespace) s.toList).map (fun l => String.mk l)).filter
    (fun w => ¬ w.isEmpty)

/-- The per-chunk body of `text_search`'s `filter_map` (`hybrid.rs`):
lower-case the chunk text, add a `0.5` phrase bonus when the whole
lower-cased query occurs verbatim, count the query words (with their
multiplicity in `words`) occurring as substrings, and keep the chunk
only when at least one word matches. -/
def textScore (words : List String) (queryLower : String) (chunk : Chunk) :
    Option (SearchResult ℚ) :=
  let contentLower := strToLower chunk.content
  let phraseBonus : ℚ := if strContains contentLower queryLower then 1/2 else 0
  let matchCount := (words.filter (fun w => strContains contentLower w)).length
  if 0 < matchCount then
    some ⟨chunk, (matchCount : ℚ) / (words.length : ℚ) + phraseBonus⟩
  else none

/-- The query tokens of `text_search`: lower-case the query, split on
whitespace and keep the words of at least 2 bytes (Rust `str::len` is
the UTF-8 byte length). -/
def queryWords (query : String) : List String :=
  (splitWhitespace (strToLower query)).filter (fun w => 2 ≤ w.utf8ByteSize)

/-- `text_search` from `hybrid.rs`: lexical search used by hybrid mode. -/
def text_search (chunks : List Chunk) (query : String) (limit : ℕ) :
    List (SearchResult ℚ) :=
  let queryLower := strToLower query
  let words := queryWords query
  if words.isEmpty then []
  else
    let results := chunks.filterMap (textScore words queryLower)
    (sortByScoreDesc results).take limit

/-- One `HashMap` upsert step of `reciprocal_rank_fusion` (`hybrid.rs`):
`*scores.entry(id).or_insert(0.0) += 1.0 / (k + rank + 1.0)` together
with `chunk_map.entry(id).or_insert(chunk)`.  The two maps, which share
their key set, are modelled as one association list
`(id, cumulative score, first-seen chunk)` kept in insertion order (the
code's `HashMap` order is arbitrary and no claim depends on it). -/
def rrfUpsert (k : ℚ) (acc : List (String × ℚ × Chunk)) (rank : ℕ)
    (r : SearchResult ℚ) : List (String × ℚ × Chunk) :=
  let contrib : ℚ := 1 / (k + rank + 1)
  if (acc.find? (fun e => e.1 = r.chunk.id)).isSome then
    acc.map (fun e =>
      if e.1 = r.chunk.id then (e.1, e.2.1 + contrib, e.2.2) else e)
  else acc ++ [(r.chunk.id, contrib, r.chunk)]

/-- The inner loop of `reciprocal_rank_fusion`: enumerate one ranked
list and upsert every result at its 0-based rank. -/
def rrfAddList (k : ℚ) (acc : List (String × ℚ × Chunk))
    (l : List (SearchResult ℚ)) : List (String × ℚ × Chunk) :=
  l.enum.foldl (fun a p => rrfUpsert k a p.1 p.2) acc

/-- `reciprocal_rank_fusion` from `hybrid.rs`. -/
def reciprocal_rank_fusion (k : ℚ) (limit : ℕ)
    (result_lists : List (List (SearchResult ℚ))) : List (SearchResult ℚ) :=
  let acc := result_lists.foldl (rrfAddList k) []
  let results := acc.map (fun e => SearchResult.mk e.2.2 e.2.1)
  (sortByScoreDesc results).take limit

/-- The contribution of one ranked list to a fragment's fused score:
`1 / (k + r + 1)` at each 0-based rank `r` holding the fragment, `0`
elsewhere. -/
def rrfListContrib (k : ℚ) (id : String) (l : List (SearchResult ℚ)) : ℚ :=
  (l.enum.map (fun p => if p.2.chunk.id = id then 1 / (k + p.1 + 1) else 0)).sum

/-- A fragment's fused score as the claim states it: the sum of the
per-list rank contributions. -/
def rrfScore (k : ℚ) (lists : List (List (SearchResult ℚ))) (id : String) : ℚ :=
  (lists.map (fun l => rrfListContrib k id l)).sum

/-- The first occurrence of a fragment identity across the input lists,
in processing order (lists in order, each list in rank order). -/
def firstOccurrence (lists : List (List (SearchResult ℚ))) (id : String) :
    Option Chunk :=
  (lists.flatten.find? (fun r => r.chunk.id = id)).map (fun r => r.chunk)

/-- Cumulative score of an identity in the fusion accumulator. -/
def accScore (acc : List (String × ℚ × Chunk)) (id : String) : ℚ :=
  match acc.find? (fun e => e.1 = id) with
  | some e => e.2.1
  | none => 0

/-- Retained chunk of an identity in the fusion accumulator. -/
def accChunk (acc : List (String × ℚ × Chunk)) (id : String) : Option Chunk :=
  (acc.find? (fun e => e.1 = id)).map (fun e => e.2.2)

/-- `FileEntry` (from `types.rs`), restricted to what the search core
reads, with the file's on-disk content made an explicit field (the model
of `fs::read_to_string`). -/
structure FileEntry where
  relative_path : String
  content : String

/-- `ChunkInfo` from `chunker.rs`: a raw chunk before embedding. -/
structure ChunkInfo where
  id : String
  file_path : String
  start_line : ℕ
  end_line : ℕ
  content : String
  hash : String
  chunk_type : ChunkType
  deriving Repr

/-- The `Chunker` configuration (`max_chars`, `overlap_chars`). -/
structure Chunker where
  max_chars : ℕ
  overlap_chars : ℕ

/-- Rust `str::lines()`: split on `\n`, drop a final empty piece
produced by a trailing newline, strip a trailing `\r` from each line. -/
def rustLines (s : String) : List String :=
  let parts := chSplit (fun c => c = '\n') s.toList
  let parts := match parts.reverse with
    | [] :: rest => rest.reverse
    | _ => parts
  parts.map (fun l => String.mk (if l.getLast? = some '\r' then l.dropLast else l))

/-- The inner `while` of `chunk_by_window` (`chunker.rs`): starting at
the cursor, count how many whole lines are accumulated before the
running byte count reaches `max_chars` (each line contributes
`line.len() + 1` for its newline).  The loop consumes a line whenever
lines remain and the running count is still below the budget. -/
def accumCount (maxChars : ℕ) : List String → ℕ → ℕ
  | [], _ => 0
  | l :: ls, currentLen =>
      if currentLen < maxChars then
        1 + accumCount maxChars ls (currentLen + l.utf8ByteSize + 1)
      else 0

/-- The window chunk pushed by `chunk_by_window` for lines
`[startLine, endLine)` (0-based); line numbers are emitted 1-based. -/
def mkWindowChunk (hashF : String → String) (fp : String)
    (startLine endLine : ℕ) (content : String) : ChunkInfo :=
  { id := fp ++ ":block:" ++ toString (startLine + 1),
    file_path := fp,
    start_line := startLine + 1,
    end_line := endLine,
    content := "File: " ++ fp ++ "\nLines: " ++ toString (startLine + 1) ++ "-"
      ++ toString endLine ++ "\n\n" ++ content,
    hash := hashF content,
    chunk_type := ChunkType.block }

/-- The outer `while start_line < lines.len()` loop of
`chunk_by_window`, with an explicit fuel counting loop iterations: the
result is `some chunks` when the loop exits within `fuel` iterations and
`none` when it does not.  `hashF` abstracts `hash_content` (a truncated
SHA-256 digest).  Each iteration accumulates lines into a window, pushes
the window unless it is whitespace-only, backs the cursor up by
`overlap_chars / 80` lines, and breaks when the new cursor or the window
end has reached the end of the file. -/
def windowLoop (hashF : String → String) (cfg : Chunker) (fp : String)
    (lines : List String) : ℕ → ℕ → List ChunkInfo → Option (List ChunkInfo)
  | 0, _, _ => none
  | fuel + 1, startLine, acc =>
      if startLine < lines.length then
        let endLine := startLine + accumCount cfg.max_chars (lines.drop startLine) 0
        let chunkContent := String.intercalate "\n"
          ((lines.drop startLine).take (endLine - startLine))
        let acc2 := if chunkContent.toList.all (fun c => c.isWhitespace) then acc
          else acc ++ [mkWindowChunk hashF fp startLine endLine chunkContent]
        let overlapLines := cfg.overlap_chars / 80
        let startLine2 := endLine - overlapLines
        if lines.length ≤ startLine2 ∨ lines.length ≤ endLine then some acc2
        else windowLoop hashF cfg fp lines fuel startLine2 acc2
      else some acc

/-- `Chunker::chunk_by_window` from `chunker.rs`, fuelled: `none` means
the loop has not terminated within `fuel` iterations. -/
def chunk_by_window (hashF : String → String) (cfg : Chunker)
    (file : FileEntry) (content : String) (fuel : ℕ) : Option (List ChunkInfo) :=
  let lines := rustLines content
  if lines.isEmpty then some []
  else windowLoop hashF cfg file.relative_path lines fuel 0 []

/-- The collaborators `Indexer::index_file` drives, abstracted as
functions: `hash` is `hash_content` (truncated SHA-256 digest of a
string); `embed` is `Embedder::embed_batch` (one vector per input text,
in order — the provider is external); `chunk` is
`Chunker::chunk_by_symbols` applied to the symbols the external
`extract_symbols` collaborator returns for the file (the chunker itself
is a genuinely partial function, see `windowLoop`, so the indexer model
takes the fragment list it produces as a function of the file). -/
structure IndexerOps where
  hash : String → String
  embed : List String → List (List ℝ)
  chunk : FileEntry → String → List ChunkInfo

/-- `Indexer::embed_chunks`: embed in batches of 32, zip each batch with
the returned vectors positionally, and build the stored `Chunk`s.
`Utc::now()` is modelled as the constant timestamp `0`. -/
def embed_chunks (ops : IndexerOps) (chunk_infos : List ChunkInfo) : List Chunk :=
  (chunk_infos.toChunks 32).flatMap (fun batch =>
    let texts := batch.map (fun c => c.content)
    let embeddings := ops.embed texts
    (batch.zip embeddings).map (fun p =>
      { id := p.1.id,
        file_path := p.1.file_path,
        start_line := p.1.start_line,
        end_line := p.1.end_line,
        content := p.1.content,
        vector := p.2,
        hash := p.1.hash,
        updated_at := 0,
        chunk_type := p.1.chunk_type }))

/-- `Indexer::index_file`: `none` means skipped (unchanged), `some n`
means indexed with `n` chunks created.  The pure model has no I/O
failures, so the `Result` layer is dropped. -/
def index_file (ops : IndexerOps) (d : IndexData) (file : FileEntry)
    (force : Bool) : Option ℕ × IndexData :=
  let content_hash := ops.hash file.content
  let unchanged :=
    !force &&
      (match hmLookup d.documents file.relative_path with
       | some doc => doc.hash == content_hash
       | none => false)
  if unchanged then (none, d)
  else
    let d1 := delete_by_file d file.relative_path
    let chunk_infos := ops.chunk file file.content
    if chunk_infos.isEmpty then (some 0, d1)
    else
      let chunks := embed_chunks ops chunk_infos
      let chunk_ids := chunks.map (fun c => c.id)
      let d2 := save_chunks d1 chunks
      let doc : Document :=
        { path := file.relative_path,
          hash := content_hash,
          mod_time := 0,
          chunk_ids := chunk_ids }
      let d3 := save_document d2 doc
      (some chunks.length, d3)

/-- `IndexResult` from `indexer.rs`. -/
structure IndexResult where
  files_processed : ℕ
  chunks_created : ℕ
  files_skipped : ℕ
  errors : List String
  deriving Repr, DecidableEq

/-- One step of `index_all`'s per-file loop: accumulate the counts. -/
def indexAllStep (ops : IndexerOps) (force : Bool)
    (s : IndexResult × IndexData) (file : FileEntry) : IndexResult × IndexData :=
  match index_file ops s.2 file force with
  | (some n, d2) =>
      ({ s.1 with files_processed := s.1.files_processed + 1,
                  chunks_created := s.1.chunks_created + n }, d2)
  | (none, d2) =>
      ({ s.1 with files_skipped := s.1.files_skipped + 1 }, d2)

/-- `Indexer::index_all`: the file list comes from the external
`scan_directory` collaborator; `load` and `persist` are identities on
the explicit store state.  In the pure model `index_file` never fails,
so the error accumulation arm is never taken. -/
def index_all (ops : IndexerOps) (d : IndexData) (files : List FileEntry)
    (force : Bool) : IndexResult × IndexData :=
  files.foldl (indexAllStep ops force)
    ({ files_processed := 0, chunks_created := 0, files_skipped := 0,
       errors := [] }, d)

/-- Rust `str::starts_with(&pre)` as a character-prefix test. -/
def strStarts (s pre : String) : Bool :=
  pre.toList.isPrefixOf s.toList

/-- The model-availability test of `OllamaEmbedder::health_check`
(`embedder/ollama.rs`):
`m.name.starts_with(&self.model) || m.name == format!("{}:latest", self.model)` —
some listed model name starts with the configured model name or equals
`"<model>:latest"`. -/
def model_available (models : List String) (model : String) : Bool :=
  models.any (fun m => strStarts m model || m == model ++ ":latest")

/-- `OllamaEmbedder::health_check`, with the HTTP exchange made
explicit: `reachable` is whether the GET to `/api/tags` connects,
`statusSuccess` its status, and `tags` the parsed model-name list
(`none` when the body does not parse).  The checks happen in the
code's order. -/
def health_check (reachable statusSuccess : Bool) (tags : Option (List String))
    (model : String) : Except String Unit :=
  if !reachable then Except.error "Cannot connect to Ollama"
  else if !statusSuccess then Except.error "Ollama health check failed"
  else
    match tags with
    | none => Except.error "response body did not parse"
    | some models =>
        if model_available models model then Except.ok ()
        else Except.error "Model not installed"

/-- Concrete store for the `delete_by_file` witness. -/
def c2Chunk (i fp : String) : Chunk :=
  { id := i, file_path := fp, start_line := 1, end_line := 2,
    content := "x", vector := [], hash := "h", updated_at := 0,
    chunk_type := ChunkType.block }

/-- A store holding chunks and documents for two files. -/
def c2Store : IndexData :=
  { chunks := [("a.rs:block:1", c2Chunk "a.rs:block:1" "a.rs"),
               ("b.rs:block:1", c2Chunk "b.rs:block:1" "b.rs")],
    documents := [("a.rs", { path := "a.rs", hash := "ha", mod_time := 0,
                             chunk_ids := ["a.rs:block:1"] }),
                  ("b.rs", { path := "b.rs", hash := "hb", mod_time := 0,
                             chunk_ids := ["b.rs:block:1"] })] }

/-- A fragment as built by `hybrid.rs`'s tests (`make_chunk`). -/
def mkTestChunk (i content : String) : Chunk :=
  { id := i, file_path := "test.rs", start_line := 1, end_line := 10,
    content := content, vector := [], hash := "abc123", updated_at := 0,
    chunk_type := ChunkType.function }

/-- The token-match ratio as the claim words it: the number of DISTINCT
query tokens occurring as substrings of the lower-cased fragment text,
divided by the total query token count. -/
def distinctTokenScore (query : String) (c : Chunk) : ℚ :=
  (((queryWords query).dedup.filter
      (fun w => strContains (strToLower c.content) w)).length : ℚ)
    / ((queryWords query).length : ℚ)

/-- Well-formedness of the fusion accumulator: entry keys are unique
and each entry's retained chunk carries the entry's identity. -/
def AccWf (acc : List (String × ℚ × Chunk)) : Prop :=
  (acc.map (fun e => e.1)).Nodup ∧ ∀ e ∈ acc, e.2.2.id = e.1

/-- The claim's example input: list A = [a@0.9, b@0.8],
list B = [b@0.9, c@0.8]. -/
def rrfExampleLists : List (List (SearchResult ℚ)) :=
  [[⟨mkTestChunk "a" "content a", 9/10⟩, ⟨mkTestChunk "b" "content b", 8/10⟩],
   [⟨mkTestChunk "b" "content b", 9/10⟩, ⟨mkTestChunk "c" "content c", 8/10⟩]]

/-- A file of long lines: each line's byte length reaches the window
budget by itself. -/
def c7File : FileEntry :=
  { relative_path := "long-lines.txt",
    content := "aaaaaaaaaaaa\nbbbbbbbbbbbb\nccc" }

/-- The per-file state the second `index_all` run relies on: a file
whose chunking yields fragments has a document recording the file's
current hash; a file whose chunking yields none has no document. -/
def docState (ops : IndexerOps) (d : IndexData) (f : FileEntry) : Prop :=
  if (ops.chunk f f.content).isEmpty
  then hmLookup d.documents f.relative_path = none
  else ∃ doc, hmLookup d.documents f.relative_path = some doc ∧
    doc.hash = ops.hash f.content

/-- A file whose content produces no fragments: the empty file. -/
def emptyFile : FileEntry := { relative_path := "empty.txt", content := "" }

/-- Indexer collaborators for the counterexample: the chunker is the
modelled `chunk_by_window` (the fallback the source chunker takes for a
file with no symbols), which on the empty file terminates immediately
with zero fragments. -/
def zeroChunkOps : IndexerOps :=
  { hash := fun _ => "h0",
    embed := fun ts => ts.map (fun _ => []),
    chunk := fun f c =>
      (chunk_by_window (fun _ => "h0") ⟨2048, 200⟩ f c 1).getD [] }

theorem hmLookup_nil {α : Type} (k : String) :
    hmLookup ([] : List (String × α)) k = none := rfl

theorem hmLookup_cons {α : Type} (p : String × α) (t : List (String × α)) (k : String) :
    hmLookup (p :: t) k = if p.1 = k then some p.2 else hmLookup t k := by
  by_cases h : p.1 = k <;> simp [hmLookup, List.find?_cons, h]

theorem hmRemove_cons {α : Type} (p : String × α) (t : List (String × α)) (k : String) :
    hmRemove (p :: t) k = if p.1 = k then hmRemove t k else p :: hmRemove t k := by
  by_cases h : p.1 = k <;> simp [hmRemove, List.filter_cons, h]

theorem hmLookup_remove_self {α : Type} (m : List (String × α)) (k : String) :
    hmLookup (hmRemove m k) k = none := by
  induction m with
  | nil => rfl
  | cons p t ih =>
      rw [hmRemove_cons]
      by_cases h : p.1 = k
      · rw [if_pos h]; exact ih
      · rw [if_neg h, hmLookup_cons, if_neg h]; exact ih

theorem hmLookup_remove_other {α : Type} (m : List (String × α)) (k k' : String)
    (hk : k' ≠ k) : hmLookup (hmRemove m k) k' = hmLookup m k' := by
  induction m with
  | nil => rfl
  | cons p t ih =>
      rw [hmRemove_cons, hmLookup_cons]
      by_cases h : p.1 = k
      · have hne : ¬ p.1 = k' := by rw [h]; exact fun hh => hk hh.symm
        rw [if_pos h, if_neg hne]; exact ih
      · rw [if_neg h, hmLookup_cons]
        by_cases h2 : p.1 = k'
        · rw [if_pos h2, if_pos h2]
        · rw [if_neg h2, if_neg h2]; exact ih

theorem hmLookup_append {α : Type} (m₁ m₂ : List (String × α)) (k : String) :
    hmLookup (m₁ ++ m₂) k =
      match hmLookup m₁ k with
      | some v => some v
      | none => hmLookup m₂ k := by
  induction m₁ with
  | nil => simp [hmLookup_nil]
  | cons p t ih =>
      rw [List.cons_append, hmLookup_cons, hmLookup_cons]
      by_cases h : p.1 = k
      · rw [if_pos h, if_pos h]
      · rw [if_neg h, if_neg h]; exact ih

theorem hmLookup_insert_self {α : Type} (m : List (String × α)) (k : String) (v : α) :
    hmLookup (hmInsert m k v) k = some v := by
  rw [hmInsert, hmLookup_append, hmLookup_remove_self]
  simp [hmLookup_cons]

theorem hmLookup_insert_other {α : Type} (m : List (String × α)) (k k' : String)
    (v : α) (hk : k' ≠ k) : hmLookup (hmInsert m k v) k' = hmLookup m k' := by
  rw [hmInsert, hmLookup_append, hmLookup_remove_other m k k' hk]
  cases hg : hmLookup m k' with
  | none =>
      have hko : ¬ (k = k') := fun hh => hk hh.symm
      simp [hmLookup_cons, hmLookup_nil, hko]
  | some q => rfl

theorem insertDesc_perm {α : Type} [LinearOrder α] (r : SearchResult α)
    (l : List (SearchResult α)) : (insertDesc r l).Perm (r :: l) := by
  induction l with
  | nil => exact List.Perm.refl _
  | cons x xs ih =>
      rw [insertDesc]
      by_cases h : x.score ≤ r.score
      · rw [if_pos h]
      · rw [if_neg h]
        exact (ih.cons x).trans (List.Perm.swap r x xs)

theorem sortByScoreDesc_perm {α : Type} [LinearOrder α]
    (rs : List (SearchResult α)) : (sortByScoreDesc rs).Perm rs := by
  induction rs with
  | nil => exact List.Perm.refl _
  | cons x xs ih =>
      rw [sortByScoreDesc, List.foldr_cons]
      exact (insertDesc_perm x _).trans (ih.cons x)

theorem insertDesc_sorted {α : Type} [LinearOrder α] (r : SearchResult α)
    (l : List (SearchResult α))
    (h : l.Pairwise (fun a b => b.score ≤ a.score)) :
    (insertDesc r l).Pairwise (fun a b => b.score ≤ a.score) := by
  induction l with
  | nil => exact List.pairwise_singleton _ _
  | cons x xs ih =>
      rcases List.pairwise_cons.mp h with ⟨hx, hxs⟩
      rw [insertDesc]
      by_cases hle : x.score ≤ r.score
      · rw [if_pos hle]
        refine List.pairwise_cons.mpr ⟨?_, h⟩
        intro y hy
        rcases List.mem_cons.mp hy with hy | hy
        · rw [hy]; exact hle
        · exact le_trans (hx y hy) hle
      · rw [if_neg hle]
        refine List.pairwise_cons.mpr ⟨?_, ih hxs⟩
        intro y hy
        rcases List.mem_cons.mp ((insertDesc_perm r xs).mem_iff.mp hy) with hy | hy
        · rw [hy]; exact le_of_lt (lt_of_not_le hle)
        · exact hx y hy

theorem sortByScoreDesc_sorted {α : Type} [LinearOrder α]
    (rs : List (SearchResult α)) :
    (sortByScoreDesc rs).Pairwise (fun a b => b.score ≤ a.score) := by
  induction rs with
  | nil => exact List.Pairwise.nil
  | cons x xs ih =>
      rw [sortByScoreDesc, List.foldr_cons]
      exact insertDesc_sorted x _ ih

theorem zipWith_fst_sq (a b : List ℝ) (h : a.length = b.length) :
    List.zipWith (fun x _ => x * x) a b = a.map (fun x => x * x) := by
  induction a generalizing b with
  | nil => simp
  | cons x t ih =>
      cases b with
      | nil => simp at h
      | cons y s =>
          simp only [List.length_cons, Nat.add_right_cancel_iff] at h
          simp [List.zipWith_cons_cons, ih s h]

theorem zipWith_snd_sq (a b : List ℝ) (h : a.length = b.length) :
    List.zipWith (fun _ y => y * y) a b = b.map (fun y => y * y) := by
  induction a generalizing b with
  | nil => cases b with
      | nil => simp
      | cons y s => simp at h
  | cons x t ih =>
      cases b with
      | nil => simp at h
      | cons y s =>
          simp only [List.length_cons, Nat.add_right_cancel_iff] at h
          simp [List.zipWith_cons_cons, ih s h]

theorem zipWith_mul_neg (v : List ℝ) :
    List.zipWith (fun x y => x * y) v (v.map (fun x => -x)) =
      v.map (fun x => -(x * x)) := by
  induction v with
  | nil => simp
  | cons x t ih => simp [List.zipWith_cons_cons, ih, mul_neg]

theorem zipWith_snd_sq_neg (v : List ℝ) :
    List.zipWith (fun _ y => y * y) v (v.map (fun x => -x)) =
      v.map (fun x => x * x) := by
  induction v with
  | nil => simp
  | cons x t ih => simp [List.zipWith_cons_cons, ih]

theorem sum_map_neg_real (l : List ℝ) : (l.map (fun x => -x)).sum = -l.sum := by
  induction l with
  | nil => simp
  | cons x t ih => simp [ih]; ring

theorem sum_map_neg_sq (v : List ℝ) :
    (v.map (fun x => -(x * x))).sum = -((v.map (fun x => x * x)).sum) := by
  induction v with
  | nil => simp
  | cons x t ih => simp [ih]; ring

theorem sumSq_nonneg (v : List ℝ) : 0 ≤ (v.map (fun x => x * x)).sum := by
  refine List.sum_nonneg ?_
  intro x hx
  rcases List.mem_map.mp hx with ⟨y, _, rfl⟩
  exact mul_self_nonneg y

theorem sumSq_pos (v : List ℝ) (h : ∃ x ∈ v, x ≠ 0) :
    0 < (v.map (fun x => x * x)).sum := by
  rcases h with ⟨x, hx, hx0⟩
  have h1 : x * x ≤ (v.map (fun x => x * x)).sum := by
    refine List.single_le_sum ?_ _ (List.mem_map.mpr ⟨x, hx, rfl⟩)
    intro y hy
    rcases List.mem_map.mp hy with ⟨z, _, rfl⟩
    exact mul_self_nonneg z
  exact lt_of_lt_of_le (mul_self_pos.mpr hx0) h1

/-- C5: `cosine_similarity` returns 0 when the vectors have unequal
lengths or either is empty; returns 0 when the product of the two square
roots (the denominator) is zero; otherwise returns the normalised dot
product.  Consequently every nonzero vector has similarity exactly 1
with itself and the similarity of a nonzero vector with its negation
(in particular of opposite unit vectors) is exactly -1. -/
theorem cosine_similarity_spec :
    (∀ a b : List ℝ, a.length ≠ b.length ∨ a = [] ∨ b = [] →
        cosine_similarity a b = 0) ∧
    (∀ a b : List ℝ,
        Real.sqrt (List.zipWith (fun x _ => x * x) a b).sum *
          Real.sqrt (List.zipWith (fun _ y => y * y) a b).sum = 0 →
        cosine_similarity a b = 0) ∧
    (∀ a b : List ℝ, a.length = b.length → a ≠ [] →
        Real.sqrt (List.zipWith (fun x _ => x * x) a b).sum *
          Real.sqrt (List.zipWith (fun _ y => y * y) a b).sum ≠ 0 →
        cosine_similarity a b =
          (List.zipWith (fun x y => x * y) a b).sum /
            (Real.sqrt (List.zipWith (fun x _ => x * x) a b).sum *
              Real.sqrt (List.zipWith (fun _ y => y * y) a b).sum)) ∧
    (∀ v : List ℝ, (∃ x ∈ v, x ≠ 0) → cosine_similarity v v = 1) ∧
    (∀ v : List ℝ, (∃ x ∈ v, x ≠ 0) →
        cosine_similarity v (v.map (fun x => -x)) = -1) := by
  have hzero : ∀ a b : List ℝ, a.length ≠ b.length ∨ a = [] ∨ b = [] →
      cosine_similarity a b = 0 := by
    intro a b h
    rcases h with h | h | h
    · rw [cosine_similarity, if_pos (Or.inl h)]
    · rw [cosine_similarity, if_pos (Or.inr h)]
    · by_cases ha : a = []
      · rw [cosine_similarity, if_pos (Or.inr ha)]
      · have : a.length ≠ b.length := by
          rw [h, List.length_nil]
          intro hl
          exact ha (List.length_eq_zero.mp hl)
        rw [cosine_similarity, if_pos (Or.inl this)]
  refine ⟨hzero, ?_, ?_, ?_, ?_⟩
  · intro a b h
    by_cases hc : a.length ≠ b.length ∨ a = []
    · rw [cosine_similarity, if_pos hc]
    · rw [cosine_similarity, if_neg hc]
      simp only [if_pos h]
  · intro a b hlen ha hd
    have hc : ¬ (a.length ≠ b.length ∨ a = []) := by
      push_neg
      exact ⟨hlen, ha⟩
    rw [cosine_similarity, if_neg hc]
    simp only [if_neg hd]
  · intro v hv
    have hvne : v ≠ [] := by
      rcases hv with ⟨x, hx, _⟩
      exact List.ne_nil_of_mem hx
    have hc : ¬ (v.length ≠ v.length ∨ v = []) := by
      push_neg
      exact ⟨rfl, hvne⟩
    rw [cosine_similarity, if_neg hc]
    simp only [List.zipWith_same]
    have hS := sumSq_pos v hv
    have hden : Real.sqrt (v.map (fun x => x * x)).sum *
        Real.sqrt (v.map (fun x => x * x)).sum = (v.map (fun x => x * x)).sum :=
      Real.mul_self_sqrt (le_of_lt hS)
    rw [hden, if_neg (ne_of_gt hS)]
    exact div_self (ne_of_gt hS)
  · intro v hv
    have hvne : v ≠ [] := by
      rcases hv with ⟨x, hx, _⟩
      exact List.ne_nil_of_mem hx
    have hc : ¬ (v.length ≠ (v.map (fun x => -x)).length ∨ v = []) := by
      push_neg
      exact ⟨by rw [List.length_map], hvne⟩
    rw [cosine_similarity, if_neg hc]
    rw [zipWith_mul_neg, zipWith_snd_sq_neg, zipWith_fst_sq v _ (by rw [List.length_map])]
    rw [sum_map_neg_sq]
    have hS := sumSq_pos v hv
    have hden : Real.sqrt (v.map (fun x => x * x)).sum *
        Real.sqrt (v.map (fun x => x * x)).sum = (v.map (fun x => x * x)).sum :=
      Real.mul_self_sqrt (le_of_lt hS)
    simp only [hden, if_neg (ne_of_gt hS)]
    rw [neg_div, div_self (ne_of_gt hS)]

/-- C9: `load` with no on-disk snapshot succeeds and leaves the
in-memory index untouched (so a default-state index stays default); a
snapshot that exists but fails to deserialize is an error; a snapshot
that deserializes replaces the entire in-memory state. -/
theorem gobStore_load_spec :
    (∀ mem, GobStore.load none mem = Except.ok mem) ∧
    (GobStore.load none IndexData.default = Except.ok IndexData.default) ∧
    (∀ mem, GobStore.load (some none) mem =
      Except.error "deserialization error") ∧
    (∀ mem d, GobStore.load (some (some d)) mem = Except.ok d) :=
  ⟨fun _ => rfl, rfl, fun _ => rfl, fun _ _ => rfl⟩

/-- C2: after `delete_by_file path` (one atomic transition under the
store's write lock) no chunk with that owning file path and no document
keyed by the path remains; every chunk of a different file path and
every document of a different path is unchanged.  The key-uniqueness
hypothesis is the `HashMap` invariant. -/
theorem delete_by_file_frame (d : IndexData) (fp : String)
    (hkeys : (d.chunks.map Prod.fst).Nodup) :
    (∀ e ∈ (delete_by_file d fp).chunks, e.2.file_path ≠ fp) ∧
    hmLookup (delete_by_file d fp).documents fp = none ∧
    (∀ e ∈ d.chunks, e.2.file_path ≠ fp → e ∈ (delete_by_file d fp).chunks) ∧
    (delete_by_file d fp).chunks.Sublist d.chunks ∧
    (∀ p, p ≠ fp →
      hmLookup (delete_by_file d fp).documents p = hmLookup d.documents p) := by
  refine ⟨?_, hmLookup_remove_self d.documents fp, ?_, ?_, ?_⟩
  · intro e he hfp
    rw [delete_by_file] at he
    rcases List.mem_filter.mp he with ⟨hmem, hnot⟩
    have hid : e.1 ∈ (d.chunks.filter (fun p => p.2.file_path = fp)).map
        (fun p => p.1) :=
      List.mem_map.mpr ⟨e, List.mem_filter.mpr ⟨hmem, by simp [hfp]⟩, rfl⟩
    simp only [decide_not, Bool.not_eq_eq_eq_not, Bool.not_true,
      decide_eq_false_iff_not] at hnot
    exact hnot hid
  · intro e he hfp
    rw [delete_by_file]
    refine List.mem_filter.mpr ⟨he, ?_⟩
    simp only [decide_not, Bool.not_eq_eq_eq_not, Bool.not_true,
      decide_eq_false_iff_not]
    intro hid
    rcases List.mem_map.mp hid with ⟨e2, he2, hkey⟩
    rcases List.mem_filter.mp he2 with ⟨he2m, he2f⟩
    have hee : e2 = e :=
      List.inj_on_of_nodup_map hkeys he2m he hkey
    rw [hee] at he2f
    exact hfp (by simpa using he2f)
  · exact List.filter_sublist d.chunks
  · intro p hp
    exact hmLookup_remove_other d.documents fp p hp

theorem delete_by_file_frame_witness :
    hmLookup (delete_by_file c2Store "a.rs").documents "a.rs" = none :=
  (delete_by_file_frame c2Store "a.rs" (by decide)).2.1

/-- C4: the store's `search` scores every stored chunk by cosine
similarity against the query vector, returns a list sorted descending
by score with at most `limit` entries, each entry carrying a stored
chunk with its cosine score; when `limit` covers the store every stored
chunk appears; and the function is deterministic (two runs on the same
state return the same sequence). -/
theorem gobStore_search_spec :
    ∀ (d : IndexData) (q : List ℝ) (limit : ℕ),
      (GobStore.search d q limit).Pairwise (fun a b => b.score ≤ a.score) ∧
      (GobStore.search d q limit).length ≤ limit ∧
      (∀ r ∈ GobStore.search d q limit,
        r.score = cosine_similarity q r.chunk.vector ∧
          ∃ e ∈ d.chunks, e.2 = r.chunk) ∧
      (d.chunks.length ≤ limit → ∀ e ∈ d.chunks,
        ∃ r ∈ GobStore.search d q limit,
          r.chunk = e.2 ∧ r.score = cosine_similarity q e.2.vector) ∧
      GobStore.search d q limit = GobStore.search d q limit := by
  intro d q limit
  refine ⟨?_, ?_, ?_, ?_, rfl⟩
  · exact List.Pairwise.sublist (List.take_sublist _ _) (sortByScoreDesc_sorted _)
  · exact List.length_take_le _ _
  · intro r hr
    have hr2 : r ∈ sortByScoreDesc (d.chunks.map (fun p =>
        SearchResult.mk p.2 (cosine_similarity q p.2.vector))) :=
      (List.take_sublist _ _).subset hr
    have hr3 := (sortByScoreDesc_perm _).mem_iff.mp hr2
    rcases List.mem_map.mp hr3 with ⟨e, he, hre⟩
    refine ⟨?_, e, he, ?_⟩
    · rw [← hre]
    · rw [← hre]
  · intro hlim e he
    have hlen : (sortByScoreDesc (d.chunks.map (fun p =>
        SearchResult.mk p.2 (cosine_similarity q p.2.vector)))).length ≤ limit := by
      rw [(sortByScoreDesc_perm _).length_eq, List.length_map]
      exact hlim
    have htake : GobStore.search d q limit = sortByScoreDesc (d.chunks.map (fun p =>
        SearchResult.mk p.2 (cosine_similarity q p.2.vector))) := by
      rw [GobStore.search]
      exact List.take_of_length_le hlen
    refine ⟨SearchResult.mk e.2 (cosine_similarity q e.2.vector), ?_, rfl, rfl⟩
    rw [htake]
    exact (sortByScoreDesc_perm _).mem_iff.mpr (List.mem_map.mpr ⟨e, he, rfl⟩)

theorem textScore_eq_some {words : List String} {queryLower : String}
    {c : Chunk} {r : SearchResult ℚ}
    (h : textScore words queryLower c = some r) :
    r.chunk = c ∧
    0 < ((words.filter (fun w => strContains (strToLower c.content) w)).length) ∧
    r.score =
      (((words.filter (fun w => strContains (strToLower c.content) w)).length : ℚ)
          / (words.length : ℚ))
        + (if strContains (strToLower c.content) queryLower then (1 : ℚ)/2 else 0) := by
  rw [textScore] at h
  by_cases hm :
      0 < (words.filter (fun w => strContains (strToLower c.content) w)).length
  · rw [if_pos hm] at h
    rcases Option.some_inj.mp h with rfl
    exact ⟨rfl, hm, rfl⟩
  · rw [if_neg hm] at h
    cases h

theorem text_search_mem {chunks : List Chunk} {query : String} {limit : ℕ}
    {r : SearchResult ℚ} (h : r ∈ text_search chunks query limit) :
    ∃ c ∈ chunks, textScore (queryWords query) (strToLower query) c = some r := by
  rw [text_search] at h
  by_cases hw : (queryWords query).isEmpty
  · rw [if_pos hw] at h
    cases h
  · rw [if_neg hw] at h
    have h2 := (List.take_sublist _ _).subset h
    have h3 := (sortByScoreDesc_perm _).mem_iff.mp h2
    exact List.mem_filterMap.mp h3

/-- C10: every result of `text_search` has a strictly positive score of
at most 3/2 (the token-match ratio is in (0, 1] and the phrase bonus
adds at most 1/2), at most `limit` results are returned, and every
returned chunk is one of the input fragments. -/
theorem text_search_invariants :
    ∀ (chunks : List Chunk) (query : String) (limit : ℕ),
      (text_search chunks query limit).length ≤ limit ∧
      ∀ r ∈ text_search chunks query limit,
        0 < r.score ∧ r.score ≤ 3/2 ∧ r.chunk ∈ chunks := by
  intro chunks query limit
  constructor
  · rw [text_search]
    by_cases hw : (queryWords query).isEmpty
    · rw [if_pos hw]
      exact Nat.zero_le _
    · rw [if_neg hw]
      exact List.length_take_le _ _
  · intro r hr
    rcases text_search_mem hr with ⟨c, hc, hs⟩
    rcases textScore_eq_some hs with ⟨hchunk, hpos, hscore⟩
    have hwlen : 0 < ((queryWords query).length : ℚ) := by
      have h1 : 0 < (queryWords query).length :=
        lt_of_lt_of_le hpos (List.length_filter_le _ _)
      exact_mod_cast h1
    have hratio_pos :
        0 < (((queryWords query).filter
            (fun w => strContains (strToLower c.content) w)).length : ℚ)
          / ((queryWords query).length : ℚ) := by
      apply div_pos _ hwlen
      exact_mod_cast hpos
    have hratio_le :
        (((queryWords query).filter
            (fun w => strContains (strToLower c.content) w)).length : ℚ)
          / ((queryWords query).length : ℚ) ≤ 1 := by
      rw [div_le_one hwlen]
      exact_mod_cast List.length_filter_le _ _
    have hbonus_nonneg :
        (0 : ℚ) ≤ (if strContains (strToLower c.content) (strToLower query)
          then (1 : ℚ)/2 else 0) := by
      split <;> norm_num
    have hbonus_le :
        (if strContains (strToLower c.content) (strToLower query)
          then (1 : ℚ)/2 else 0) ≤ 1/2 := by
      split <;> norm_num
    refine ⟨?_, ?_, ?_⟩
    · rw [hscore]
      exact lt_of_lt_of_le hratio_pos (le_add_of_nonneg_right hbonus_nonneg)
    · rw [hscore]
      calc _ ≤ (1 : ℚ) + 1/2 := add_le_add hratio_le hbonus_le
        _ = 3/2 := by norm_num
    · rw [hchunk]
      exact hc

/-- C6 counterexample: for the duplicated-token query "user user"
against a fragment whose text is "user", the code scores the fragment
`2/2 = 1` (tokens are counted with multiplicity), while the claim's
formula — distinct matched tokens over total tokens, plus a phrase
bonus of 0 here — yields `1/2`. -/
theorem text_search_distinct_token_cex :
    (text_search [mkTestChunk "1" "user"] "user user" 10).map
        (fun r => r.score) = [1] ∧
    strContains (strToLower (mkTestChunk "1" "user").content)
        (strToLower "user user") = false ∧
    distinctTokenScore "user user" (mkTestChunk "1" "user") = 1/2 ∧
    ¬ ((1 : ℚ) = 1/2 + 0) := by
  refine ⟨?_, rfl, ?_, by norm_num⟩
  · show [((2 : ℕ) : ℚ) / ((2 : ℕ) : ℚ) + 0] = [1]
    norm_num
  · show ((1 : ℕ) : ℚ) / ((2 : ℕ) : ℚ) = 1/2
    norm_num

/-- C6 (amended: the token-match count is over token OCCURRENCES —
tokens counted with their multiplicity in the token list — not over
distinct tokens): `text_search` lower-cases the query, splits it on
whitespace, discards tokens shorter than 2 bytes and returns the empty
list when no tokens remain; each returned fragment's score is the
number of query-token occurrences found as substrings of the
lower-cased fragment text divided by the total token count, plus a flat
1/2 bonus when the full lower-cased query occurs verbatim; zero-match
fragments are excluded; results are sorted descending by score and
truncated to `limit`; and for query "user authentication" the fragment
"user authentication" scores 3/2, above "authentication for user
accounts" at 1. -/
theorem text_search_spec_amended :
    (∀ (chunks : List Chunk) (query : String) (limit : ℕ),
      queryWords query = [] → text_search chunks query limit = []) ∧
    (∀ (chunks : List Chunk) (query : String) (limit : ℕ)
        (r : SearchResult ℚ), r ∈ text_search chunks query limit →
      ∃ c ∈ chunks, r.chunk = c ∧
        0 < ((queryWords query).filter
          (fun w => strContains (strToLower c.content) w)).length ∧
        r.score =
          (((queryWords query).filter
              (fun w => strContains (strToLower c.content) w)).length : ℚ)
            / ((queryWords query).length : ℚ)
          + (if strContains (strToLower c.content) (strToLower query)
              then (1 : ℚ)/2 else 0)) ∧
    (∀ (chunks : List Chunk) (query : String) (limit : ℕ),
      (text_search chunks query limit).Pairwise (fun a b => b.score ≤ a.score) ∧
      (text_search chunks query limit).length ≤ limit) ∧
    (text_search [mkTestChunk "1" "user authentication",
        mkTestChunk "2" "authentication for user accounts"]
        "user authentication" 10).map (fun r => (r.chunk.id, r.score))
      = [("1", 3/2), ("2", 1)] := by
  refine ⟨?_, ?_, ?_, ?_⟩
  · intro chunks query limit hq
    rw [text_search]
    rw [if_pos (by rw [hq]; rfl)]
  · intro chunks query limit r hr
    rcases text_search_mem hr with ⟨c, hc, hs⟩
    rcases textScore_eq_some hs with ⟨hchunk, hpos, hscore⟩
    exact ⟨c, hc, hchunk, hpos, hscore⟩
  · intro chunks query limit
    constructor
    · rw [text_search]
      by_cases hw : (queryWords query).isEmpty
      · rw [if_pos hw]
        exact List.Pairwise.nil
      · rw [if_neg hw]
        exact List.Pairwise.sublist (List.take_sublist _ _)
          (sortByScoreDesc_sorted _)
    · rw [text_search]
      by_cases hw : (queryWords query).isEmpty
      · rw [if_pos hw]
        exact Nat.zero_le _
      · rw [if_neg hw]
        exact List.length_take_le _ _
  · have h1 : text_search [mkTestChunk "1" "user authentication",
        mkTestChunk "2" "authentication for user accounts"]
        "user authentication" 10
      = (sortByScoreDesc
          [⟨mkTestChunk "1" "user authentication",
            ((2 : ℕ) : ℚ) / ((2 : ℕ) : ℚ) + (1 : ℚ)/2⟩,
           ⟨mkTestChunk "2" "authentication for user accounts",
            ((2 : ℕ) : ℚ) / ((2 : ℕ) : ℚ) + 0⟩]).take 10 := rfl
    rw [h1, sortByScoreDesc, List.foldr_cons, List.foldr_cons, List.foldr_nil,
      insertDesc, insertDesc]
    rw [if_pos (by norm_num)]
    norm_num [mkTestChunk]

theorem accScore_cons (e : String × ℚ × Chunk) (t : List (String × ℚ × Chunk))
    (id : String) :
    accScore (e :: t) id = if e.1 = id then e.2.1 else accScore t id := by
  by_cases h : e.1 = id <;> simp [accScore, List.find?_cons, h]

theorem accChunk_cons (e : String × ℚ × Chunk) (t : List (String × ℚ × Chunk))
    (id : String) :
    accChunk (e :: t) id = if e.1 = id then some e.2.2 else accChunk t id := by
  by_cases h : e.1 = id <;> simp [accChunk, List.find?_cons, h]

theorem accScore_append (m₁ m₂ : List (String × ℚ × Chunk)) (id : String) :
    accScore (m₁ ++ m₂) id =
      if (m₁.find? (fun e => e.1 = id)).isSome then accScore m₁ id
      else accScore m₂ id := by
  induction m₁ with
  | nil => simp [accScore]
  | cons e t ih =>
      rw [List.cons_append, accScore_cons]
      by_cases h : e.1 = id
      · have hcons : (e :: t).find? (fun x => x.1 = id) = some e := by
          simp [List.find?_cons, h]
        rw [if_pos h, hcons]
        simp [accScore_cons, h]
      · have hcons : (e :: t).find? (fun x => x.1 = id)
            = t.find? (fun x => x.1 = id) := by
          simp [List.find?_cons, h]
        rw [if_neg h, ih, hcons, accScore_cons, if_neg h]

theorem accChunk_append (m₁ m₂ : List (String × ℚ × Chunk)) (id : String) :
    accChunk (m₁ ++ m₂) id = (accChunk m₁ id).or (accChunk m₂ id) := by
  induction m₁ with
  | nil => simp [accChunk]
  | cons e t ih =>
      rw [List.cons_append, accChunk_cons, accChunk_cons]
      by_cases h : e.1 = id
      · rw [if_pos h, if_pos h]
        rfl
      · rw [if_neg h, if_neg h, ih]

theorem accScore_map_bump_other (acc : List (String × ℚ × Chunk))
    (rid : String) (contrib : ℚ) (id : String) (hne : id ≠ rid) :
    accScore (acc.map (fun e =>
      if e.1 = rid then (e.1, e.2.1 + contrib, e.2.2) else e)) id
      = accScore acc id := by
  induction acc with
  | nil => rfl
  | cons e t ih =>
      rw [List.map_cons, accScore_cons, accScore_cons]
      have hkey : (if e.1 = rid then (e.1, e.2.1 + contrib, e.2.2) else e).1
          = e.1 := by
        split <;> rfl
      rw [hkey]
      by_cases h : e.1 = id
      · rw [if_pos h, if_pos h]
        have hrid : ¬ e.1 = rid := by
          rw [h]; exact hne
        rw [if_neg hrid]
      · rw [if_neg h, if_neg h, ih]

theorem accScore_map_bump_self (acc : List (String × ℚ × Chunk))
    (rid : String) (contrib : ℚ)
    (hf : (acc.find? (fun e => e.1 = rid)).isSome) :
    accScore (acc.map (fun e =>
      if e.1 = rid then (e.1, e.2.1 + contrib, e.2.2) else e)) rid
      = accScore acc rid + contrib := by
  induction acc with
  | nil => simp [List.find?] at hf
  | cons e t ih =>
      rw [List.map_cons, accScore_cons, accScore_cons]
      have hkey : (if e.1 = rid then (e.1, e.2.1 + contrib, e.2.2) else e).1
          = e.1 := by
        split <;> rfl
      rw [hkey]
      by_cases h : e.1 = rid
      · rw [if_pos h, if_pos h, if_pos h]
      · rw [if_neg h, if_neg h]
        apply ih
        have hcons : (e :: t).find? (fun x => x.1 = rid)
            = t.find? (fun x => x.1 = rid) := by
          simp [List.find?_cons, h]
        rw [hcons] at hf
        exact hf

theorem accChunk_map_bump (acc : List (String × ℚ × Chunk))
    (rid : String) (contrib : ℚ) (id : String) :
    accChunk (acc.map (fun e =>
      if e.1 = rid then (e.1, e.2.1 + contrib, e.2.2) else e)) id
      = accChunk acc id := by
  induction acc with
  | nil => rfl
  | cons e t ih =>
      rw [List.map_cons, accChunk_cons, accChunk_cons]
      have hkey : (if e.1 = rid then (e.1, e.2.1 + contrib, e.2.2) else e).1
          = e.1 := by
        split <;> rfl
      have hval : (if e.1 = rid then (e.1, e.2.1 + contrib, e.2.2) else e).2.2
          = e.2.2 := by
        split <;> rfl
      rw [hkey, hval]
      by_cases h : e.1 = id
      · rw [if_pos h, if_pos h]
      · rw [if_neg h, if_neg h, ih]

theorem accScore_upsert (k : ℚ) (acc : List (String × ℚ × Chunk)) (rank : ℕ)
    (r : SearchResult ℚ) (id : String) :
    accScore (rrfUpsert k acc rank r) id =
      accScore acc id +
        (if r.chunk.id = id then 1 / (k + (rank : ℚ) + 1) else 0) := by
  rw [rrfUpsert]
  by_cases hf : (acc.find? (fun e => e.1 = r.chunk.id)).isSome
  · rw [if_pos hf]
    by_cases hid : r.chunk.id = id
    · rw [if_pos hid, ← hid]
      exact accScore_map_bump_self acc r.chunk.id _ hf
    · rw [if_neg hid, add_zero]
      exact accScore_map_bump_other acc r.chunk.id _ id
        (fun hh => hid hh.symm)
  · rw [if_neg hf]
    have hfn : acc.find? (fun e => e.1 = r.chunk.id) = none :=
      Option.not_isSome_iff_eq_none.mp hf
    rw [accScore_append]
    by_cases hid : r.chunk.id = id
    · have hfn2 : acc.find? (fun e => e.1 = id) = none := by
        rw [← hid]; exact hfn
      have hacc : accScore acc id = 0 := by
        rw [accScore, hfn2]
      rw [if_neg (by rw [hfn2]; simp), hacc, if_pos hid,
        accScore_cons, if_pos hid, zero_add]
    · by_cases hg : (acc.find? (fun e => e.1 = id)).isSome
      · rw [if_pos hg, if_neg hid, add_zero]
      · rw [if_neg hg, accScore_cons, if_neg hid, if_neg hid, add_zero]
        have hgn : acc.find? (fun e => e.1 = id) = none :=
          Option.not_isSome_iff_eq_none.mp hg
        have hacc : accScore acc id = 0 := by
          rw [accScore, hgn]
        rw [hacc]
        rfl

theorem accChunk_upsert (k : ℚ) (acc : List (String × ℚ × Chunk)) (rank : ℕ)
    (r : SearchResult ℚ) (id : String) :
    accChunk (rrfUpsert k acc rank r) id =
      (accChunk acc id).or (if r.chunk.id = id then some r.chunk else none) := by
  rw [rrfUpsert]
  by_cases hf : (acc.find? (fun e => e.1 = r.chunk.id)).isSome
  · rw [if_pos hf, accChunk_map_bump]
    by_cases hid : r.chunk.id = id
    · have hg : (acc.find? (fun e => e.1 = id)).isSome := by
        rw [← hid]; exact hf
      rcases Option.isSome_iff_exists.mp hg with ⟨e, he⟩
      have hchunk : accChunk acc id = some e.2.2 := by
        rw [accChunk, he]; rfl
      rw [hchunk]
      rfl
    · cases hc : accChunk acc id <;> simp [hid]
  · rw [if_neg hf]
    have hfn : acc.find? (fun e => e.1 = r.chunk.id) = none :=
      Option.not_isSome_iff_eq_none.mp hf
    rw [accChunk_append]
    by_cases hid : r.chunk.id = id
    · rw [accChunk_cons, if_pos hid, if_pos hid]
    · rw [accChunk_cons, if_neg hid, if_neg hid]
      rfl

theorem accScore_foldPairs (k : ℚ) (ps : List (ℕ × SearchResult ℚ))
    (acc : List (String × ℚ × Chunk)) (id : String) :
    accScore (ps.foldl (fun a p => rrfUpsert k a p.1 p.2) acc) id =
      accScore acc id +
        (ps.map (fun p =>
          if p.2.chunk.id = id then 1 / (k + (p.1 : ℚ) + 1) else 0)).sum := by
  induction ps generalizing acc with
  | nil => simp
  | cons p t ih =>
      rw [List.foldl_cons, ih, accScore_upsert, List.map_cons, List.sum_cons]
      ring

theorem accChunk_foldPairs (k : ℚ) (ps : List (ℕ × SearchResult ℚ))
    (acc : List (String × ℚ × Chunk)) (id : String) :
    accChunk (ps.foldl (fun a p => rrfUpsert k a p.1 p.2) acc) id =
      (accChunk acc id).or
        ((ps.find? (fun p => p.2.chunk.id = id)).map (fun p => p.2.chunk)) := by
  induction ps generalizing acc with
  | nil => simp
  | cons p t ih =>
      rw [List.foldl_cons, ih, accChunk_upsert, List.find?_cons]
      by_cases h : p.2.chunk.id = id
      · simp [h, Option.or_assoc]
      · have hd : decide (p.2.chunk.id = id) = false := by simp [h]
        rw [if_neg h, hd]
        simp

theorem find?_enumFrom_chunk (l : List (SearchResult ℚ)) (n : ℕ) (id : String) :
    ((List.enumFrom n l).find? (fun p => p.2.chunk.id = id)).map
        (fun p => p.2.chunk) =
      (l.find? (fun r => r.chunk.id = id)).map (fun r => r.chunk) := by
  induction l generalizing n with
  | nil => rfl
  | cons x t ih =>
      rw [List.enumFrom_cons, List.find?_cons, List.find?_cons]
      by_cases h : x.chunk.id = id
      · simp [h]
      · have hd : decide (x.chunk.id = id) = false := by simp [h]
        simp only [hd]
        exact ih (n + 1)

theorem find?_enum_chunk (l : List (SearchResult ℚ)) (id : String) :
    ((l.enum.find? (fun p => p.2.chunk.id = id)).map (fun p => p.2.chunk)) =
      (l.find? (fun r => r.chunk.id = id)).map (fun r => r.chunk) :=
  find?_enumFrom_chunk l 0 id

theorem firstOccurrence_cons (l : List (SearchResult ℚ))
    (t : List (List (SearchResult ℚ))) (id : String) :
    firstOccurrence (l :: t) id =
      ((l.find? (fun r => r.chunk.id = id)).map (fun r => r.chunk)).or
        (firstOccurrence t id) := by
  rw [firstOccurrence, firstOccurrence, List.flatten_cons, List.find?_append]
  cases hg : l.find? (fun r => r.chunk.id = id) with
  | none => simp [hg]
  | some x => simp [hg]

theorem accScore_foldLists (k : ℚ) (lists : List (List (SearchResult ℚ)))
    (acc : List (String × ℚ × Chunk)) (id : String) :
    accScore (lists.foldl (rrfAddList k) acc) id =
      accScore acc id + rrfScore k lists id := by
  induction lists generalizing acc with
  | nil => simp [rrfScore]
  | cons l t ih =>
      rw [List.foldl_cons, ih]
      have h1 : accScore (rrfAddList k acc l) id =
          accScore acc id + rrfListContrib k id l :=
        accScore_foldPairs k l.enum acc id
      rw [h1, rrfScore, rrfScore, List.map_cons, List.sum_cons]
      ring

theorem accChunk_foldLists (k : ℚ) (lists : List (List (SearchResult ℚ)))
    (acc : List (String × ℚ × Chunk)) (id : String) :
    accChunk (lists.foldl (rrfAddList k) acc) id =
      (accChunk acc id).or (firstOccurrence lists id) := by
  induction lists generalizing acc with
  | nil =>
      rw [List.foldl_nil]
      have : firstOccurrence [] id = none := rfl
      rw [this]
      cases accChunk acc id <;> rfl
  | cons l t ih =>
      rw [List.foldl_cons, ih]
      have h1 : accChunk (rrfAddList k acc l) id =
          (accChunk acc id).or
            ((l.find? (fun r => r.chunk.id = id)).map (fun r => r.chunk)) := by
        rw [rrfAddList, accChunk_foldPairs, find?_enum_chunk l id]
      rw [h1, firstOccurrence_cons, Option.or_assoc]

theorem accWf_upsert (k : ℚ) (acc : List (String × ℚ × Chunk)) (rank : ℕ)
    (r : SearchResult ℚ) (h : AccWf acc) : AccWf (rrfUpsert k acc rank r) := by
  rcases h with ⟨hnd, hid⟩
  rw [rrfUpsert]
  by_cases hf : (acc.find? (fun e => e.1 = r.chunk.id)).isSome
  · rw [if_pos hf]
    constructor
    · have hkeys : (acc.map (fun e =>
          if e.1 = r.chunk.id then (e.1, e.2.1 + (1 / (k + (rank : ℚ) + 1)), e.2.2)
          else e)).map (fun e => e.1) = acc.map (fun e => e.1) := by
        rw [List.map_map]
        refine List.map_congr_left ?_
        intro e _
        simp only [Function.comp_apply]
        split <;> rfl
      rw [hkeys]
      exact hnd
    · intro e he
      rcases List.mem_map.mp he with ⟨e0, he0, rfl⟩
      by_cases h0 : e0.1 = r.chunk.id
      · simp only [if_pos h0]
        exact hid e0 he0
      · simp only [if_neg h0]
        exact hid e0 he0
  · rw [if_neg hf]
    have hfn : acc.find? (fun e => e.1 = r.chunk.id) = none :=
      Option.not_isSome_iff_eq_none.mp hf
    constructor
    · rw [List.map_append]
      refine List.Nodup.append hnd (List.nodup_singleton _) ?_
      intro a ha hb
      have hb2 : a = r.chunk.id := by simpa using hb
      rcases List.mem_map.mp ha with ⟨e, he, hkey⟩
      have hne := List.find?_eq_none.mp hfn e he
      simp only [decide_eq_true_eq] at hne
      exact hne (by rw [hkey, hb2])
    · intro e he
      rcases List.mem_append.mp he with he | he
      · exact hid e he
      · have he2 : e = (r.chunk.id, 1 / (k + (rank : ℚ) + 1), r.chunk) := by
          simpa using he
        rw [he2]

theorem accWf_foldPairs (k : ℚ) (ps : List (ℕ × SearchResult ℚ))
    (acc : List (String × ℚ × Chunk)) (h : AccWf acc) :
    AccWf (ps.foldl (fun a p => rrfUpsert k a p.1 p.2) acc) := by
  induction ps generalizing acc with
  | nil => exact h
  | cons p t ih =>
      rw [List.foldl_cons]
      exact ih _ (accWf_upsert k acc p.1 p.2 h)

theorem accWf_foldLists (k : ℚ) (lists : List (List (SearchResult ℚ)))
    (acc : List (String × ℚ × Chunk)) (h : AccWf acc) :
    AccWf (lists.foldl (rrfAddList k) acc) := by
  induction lists generalizing acc with
  | nil => exact h
  | cons l t ih =>
      rw [List.foldl_cons]
      exact ih _ (accWf_foldPairs k l.enum acc h)

theorem find?_of_mem_nodup (acc : List (String × ℚ × Chunk))
    (hnd : (acc.map (fun e => e.1)).Nodup) (e : String × ℚ × Chunk)
    (he : e ∈ acc) : acc.find? (fun x => x.1 = e.1) = some e := by
  induction acc with
  | nil => cases he
  | cons x t ih =>
      rw [List.map_cons] at hnd
      rcases List.nodup_cons.mp hnd with ⟨hx_not, hnd_t⟩
      rcases List.mem_cons.mp he with rfl | he2
      · simp [List.find?_cons]
      · by_cases hx : x.1 = e.1
        · exfalso
          apply hx_not
          rw [hx]
          exact List.mem_map.mpr ⟨e, he2, rfl⟩
        · have hd : decide (x.1 = e.1) = false := by simp [hx]
          rw [List.find?_cons, hd]
          exact ih hnd_t he2

/-- C3: every fused result's score is the sum over the input lists of
`1/(k + r + 1)` at each 0-based rank `r` where the fragment occurs
(absence contributes nothing), the retained chunk data is the
fragment's first occurrence across the lists in processing order, the
output is sorted descending by fused score and truncated to `limit`,
and on the example lists A = [a, b], B = [b, c] with the default
`k = 60` the fused ranking is b, a, c — in particular the top result
is b. -/
theorem reciprocal_rank_fusion_spec :
    (∀ (k : ℚ) (limit : ℕ) (lists : List (List (SearchResult ℚ)))
        (r : SearchResult ℚ), r ∈ reciprocal_rank_fusion k limit lists →
      r.score = rrfScore k lists r.chunk.id ∧
      firstOccurrence lists r.chunk.id = some r.chunk) ∧
    (∀ (k : ℚ) (limit : ℕ) (lists : List (List (SearchResult ℚ))),
      (reciprocal_rank_fusion k limit lists).Pairwise
        (fun a b => b.score ≤ a.score) ∧
      (reciprocal_rank_fusion k limit lists).length ≤ limit) ∧
    (reciprocal_rank_fusion 60 10 rrfExampleLists).map (fun r => r.chunk.id)
      = ["b", "a", "c"] := by
  have hwfnil : AccWf ([] : List (String × ℚ × Chunk)) := by
    constructor
    · simp
    · intro e he
      cases he
  refine ⟨?_, ?_, ?_⟩
  · intro k limit lists r hr
    rw [reciprocal_rank_fusion] at hr
    have h2 := (List.take_sublist _ _).subset hr
    have h3 := (sortByScoreDesc_perm _).mem_iff.mp h2
    rcases List.mem_map.mp h3 with ⟨e, he, hre⟩
    rcases accWf_foldLists k lists [] hwfnil with ⟨hnd, hidchunk⟩
    have hfind := find?_of_mem_nodup _ hnd e he
    constructor
    · have hsc : accScore (lists.foldl (rrfAddList k) []) e.1 = e.2.1 := by
        rw [accScore, hfind]
      have h4 := accScore_foldLists k lists [] e.1
      have h0 : accScore ([] : List (String × ℚ × Chunk)) e.1 = 0 := rfl
      rw [hsc, h0, zero_add] at h4
      rw [← hre]
      show e.2.1 = rrfScore k lists e.2.2.id
      rw [hidchunk e he]
      exact h4
    · have hch : accChunk (lists.foldl (rrfAddList k) []) e.1 = some e.2.2 := by
        rw [accChunk, hfind]
        rfl
      have h5 := accChunk_foldLists k lists [] e.1
      have h0 : accChunk ([] : List (String × ℚ × Chunk)) e.1 = none := rfl
      rw [hch, h0] at h5
      have h6 : firstOccurrence lists e.1 = some e.2.2 := h5.symm
      rw [← hre]
      show firstOccurrence lists e.2.2.id = some e.2.2
      rw [hidchunk e he]
      exact h6
  · intro k limit lists
    constructor
    · rw [reciprocal_rank_fusion]
      exact List.Pairwise.sublist (List.take_sublist _ _)
        (sortByScoreDesc_sorted _)
    · rw [reciprocal_rank_fusion]
      exact List.length_take_le _ _
  · have h1 : reciprocal_rank_fusion 60 10 rrfExampleLists
        = (sortByScoreDesc
            [⟨mkTestChunk "a" "content a", 1 / (60 + ((0 : ℕ) : ℚ) + 1)⟩,
             ⟨mkTestChunk "b" "content b",
                1 / (60 + ((1 : ℕ) : ℚ) + 1) + 1 / (60 + ((0 : ℕ) : ℚ) + 1)⟩,
             ⟨mkTestChunk "c" "content c", 1 / (60 + ((1 : ℕ) : ℚ) + 1)⟩]).take 10
        := rfl
    rw [h1, sortByScoreDesc]
    simp only [List.foldr_cons, List.foldr_nil, insertDesc]
    norm_num [mkTestChunk]
    norm_num [insertDesc]

theorem windowLoop_c7_stuck (hashF : String → String) :
    ∀ (fuel : ℕ) (acc : List ChunkInfo),
      windowLoop hashF ⟨10, 80⟩ "long-lines.txt"
        (rustLines "aaaaaaaaaaaa\nbbbbbbbbbbbb\nccc") fuel 0 acc = none := by
  intro fuel
  induction fuel with
  | zero => intro acc; rfl
  | succ n ih =>
      intro acc
      exact ih _

/-- C7 (refuted; the code loops forever): with `max_chars = 10` and
`overlap_chars = 80` (one overlap line) on a file whose first line
already fills a window, each iteration of `chunk_by_window` re-emits
the first window and sets the cursor back to line 0, so the scan cursor
never reaches the end of the file: for every iteration budget the loop
is still running. -/
theorem chunk_by_window_nonterminating :
    ∀ (hashF : String → String) (fuel : ℕ),
      chunk_by_window hashF ⟨10, 80⟩ c7File c7File.content fuel = none := by
  intro hashF fuel
  exact windowLoop_c7_stuck hashF fuel []

theorem index_file_unchanged_skips (ops : IndexerOps) (d : IndexData)
    (file : FileEntry) (doc : Document)
    (hdoc : hmLookup d.documents file.relative_path = some doc)
    (hhash : doc.hash = ops.hash file.content) :
    index_file ops d file false = (none, d) := by
  simp only [index_file, hdoc]
  simp [hhash]

theorem index_file_of_none_empty (ops : IndexerOps) (d : IndexData)
    (file : FileEntry)
    (hnone : hmLookup d.documents file.relative_path = none)
    (hempty : (ops.chunk file file.content).isEmpty) :
    index_file ops d file false =
      (some 0, delete_by_file d file.relative_path) := by
  simp only [index_file, hnone]
  simp [hempty]

theorem index_file_docs_other (ops : IndexerOps) (d : IndexData)
    (file : FileEntry) (force : Bool) (p : String)
    (hp : p ≠ file.relative_path) :
    hmLookup (index_file ops d file force).2.documents p
      = hmLookup d.documents p := by
  rw [index_file]
  by_cases hu : (!force &&
      (match hmLookup d.documents file.relative_path with
       | some doc => doc.hash == ops.hash file.content
       | none => false)) = true
  · rw [if_pos hu]
  · rw [if_neg hu]
    by_cases hch : (ops.chunk file file.content).isEmpty
    · rw [if_pos hch]
      exact hmLookup_remove_other d.documents file.relative_path p hp
    · rw [if_neg hch]
      have h1 : hmLookup (hmInsert
          (delete_by_file d file.relative_path).documents file.relative_path
          { path := file.relative_path, hash := ops.hash file.content,
            mod_time := 0,
            chunk_ids := (embed_chunks ops (ops.chunk file file.content)).map
              (fun c => c.id) }) p
          = hmLookup (delete_by_file d file.relative_path).documents p :=
        hmLookup_insert_other _ _ _ _ hp
      exact h1.trans (hmLookup_remove_other d.documents file.relative_path p hp)

theorem docState_congr (ops : IndexerOps) {d d' : IndexData} (f : FileEntry)
    (h : hmLookup d'.documents f.relative_path
      = hmLookup d.documents f.relative_path)
    (hd : docState ops d f) : docState ops d' f := by
  rw [docState, h]
  rw [docState] at hd
  exact hd

theorem index_file_docs_self (ops : IndexerOps) (d : IndexData)
    (file : FileEntry)
    (hnone : hmLookup d.documents file.relative_path = none) :
    docState ops (index_file ops d file false).2 file := by
  rw [docState]
  by_cases hch : (ops.chunk file file.content).isEmpty
  · rw [if_pos hch]
    simp only [index_file, hnone, hch]
    simp only [Bool.not_false, Bool.false_and, Bool.and_false, if_false,
      if_true, Bool.false_eq_true]
    exact hmLookup_remove_self d.documents file.relative_path
  · rw [if_neg hch]
    simp only [index_file, hnone, hch]
    simp only [Bool.not_false, Bool.false_and, Bool.and_false, if_false,
      if_true, Bool.false_eq_true]
    exact ⟨_, hmLookup_insert_self _ _ _, rfl⟩

theorem indexAllStep_snd (ops : IndexerOps) (force : Bool)
    (s : IndexResult × IndexData) (file : FileEntry) :
    (indexAllStep ops force s file).2 = (index_file ops s.2 file force).2 := by
  rw [indexAllStep]
  rcases h : index_file ops s.2 file force with ⟨res, d2⟩
  cases res <;> rfl

theorem fold_docs_other (ops : IndexerOps) (force : Bool)
    (files : List FileEntry) :
    ∀ (s : IndexResult × IndexData) (p : String),
      (∀ f ∈ files, f.relative_path ≠ p) →
      hmLookup (files.foldl (indexAllStep ops force) s).2.documents p
        = hmLookup s.2.documents p := by
  induction files with
  | nil => intro s p _; rfl
  | cons g t ih =>
      intro s p h
      rw [List.foldl_cons]
      rw [ih _ p (fun f hf => h f (List.mem_cons_of_mem g hf))]
      rw [indexAllStep_snd]
      exact index_file_docs_other ops s.2 g force p
        (fun hh => h g (List.mem_cons_self g t) hh.symm)

theorem run1_docState (ops : IndexerOps) :
    ∀ (files : List FileEntry) (s : IndexResult × IndexData),
      (files.map (fun f => f.relative_path)).Nodup →
      (∀ f ∈ files, hmLookup s.2.documents f.relative_path = none) →
      ∀ f ∈ files,
        docState ops (files.foldl (indexAllStep ops false) s).2 f := by
  intro files
  induction files with
  | nil => intro s _ _ f hf; cases hf
  | cons g t ih =>
      intro s hnd hnone f hf
      rw [List.map_cons] at hnd
      rcases List.nodup_cons.mp hnd with ⟨hg_not, hnd_t⟩
      have hpaths : ∀ f' ∈ t, f'.relative_path ≠ g.relative_path := by
        intro f' hf' heq
        exact hg_not (List.mem_map.mpr ⟨f', hf', heq⟩)
      rw [List.foldl_cons]
      rcases List.mem_cons.mp hf with rfl | hf_t
      · have hstep : docState ops (indexAllStep ops false s f).2 f := by
          rw [indexAllStep_snd]
          exact index_file_docs_self ops s.2 f (hnone f (List.mem_cons_self f t))
        refine docState_congr ops f ?_ hstep
        exact fold_docs_other ops false t (indexAllStep ops false s f)
          f.relative_path hpaths
      · refine ih (indexAllStep ops false s g) hnd_t ?_ f hf_t
        intro f' hf'
        rw [indexAllStep_snd]
        rw [index_file_docs_other ops s.2 g false f'.relative_path
          (hpaths f' hf')]
        exact hnone f' (List.mem_cons_of_mem g hf')

theorem run2_counts (ops : IndexerOps) :
    ∀ (files : List FileEntry) (s : IndexResult × IndexData),
      (files.map (fun f => f.relative_path)).Nodup →
      (∀ f ∈ files, docState ops s.2 f) →
      (files.foldl (indexAllStep ops false) s).1.chunks_created
          = s.1.chunks_created ∧
      (files.foldl (indexAllStep ops false) s).1.files_skipped
          = s.1.files_skipped +
            (files.filter (fun f => ¬ (ops.chunk f f.content).isEmpty)).length ∧
      (files.foldl (indexAllStep ops false) s).1.files_processed
          = s.1.files_processed +
            (files.filter (fun f => (ops.chunk f f.content).isEmpty)).length := by
  intro files
  induction files with
  | nil => intro s _ _; exact ⟨rfl, by simp, by simp⟩
  | cons g t ih =>
      intro s hnd hds
      rw [List.map_cons] at hnd
      rcases List.nodup_cons.mp hnd with ⟨hg_not, hnd_t⟩
      have hpaths : ∀ f' ∈ t, f'.relative_path ≠ g.relative_path := by
        intro f' hf' heq
        exact hg_not (List.mem_map.mpr ⟨f', hf', heq⟩)
      rw [List.foldl_cons]
      have hdg := hds g (List.mem_cons_self g t)
      by_cases hch : (ops.chunk g g.content).isEmpty
      · rw [docState, if_pos hch] at hdg
        have hif : index_file ops s.2 g false
            = (some 0, delete_by_file s.2 g.relative_path) :=
          index_file_of_none_empty ops s.2 g hdg hch
        have hstep : indexAllStep ops false s g =
            ({ s.1 with files_processed := s.1.files_processed + 1,
                        chunks_created := s.1.chunks_created + 0 },
             delete_by_file s.2 g.relative_path) := by
          rw [indexAllStep, hif]
        have hds_t : ∀ f ∈ t, docState ops (indexAllStep ops false s g).2 f := by
          intro f hf
          refine docState_congr ops f ?_ (hds f (List.mem_cons_of_mem g hf))
          rw [indexAllStep_snd]
          exact index_file_docs_other ops s.2 g false f.relative_path
            (hpaths f hf)
        have hstep1 : (indexAllStep ops false s g).1.chunks_created
            = s.1.chunks_created := by
          rw [indexAllStep, hif]
          rfl
        have hstep2 : (indexAllStep ops false s g).1.files_skipped
            = s.1.files_skipped := by
          rw [indexAllStep, hif]
        have hstep3 : (indexAllStep ops false s g).1.files_processed
            = s.1.files_processed + 1 := by
          rw [indexAllStep, hif]
        rcases ih (indexAllStep ops false s g) hnd_t hds_t with ⟨h1, h2, h3⟩
        refine ⟨by rw [h1, hstep1], ?_, ?_⟩
        · rw [h2, hstep2, List.filter_cons]
          rw [if_neg (by simp [hch])]
        · rw [h3, hstep3, List.filter_cons, if_pos (by simpa using hch)]
          simp only [List.length_cons]
          omega
      · rw [docState, if_neg hch] at hdg
        rcases hdg with ⟨doc, hsome, hhash⟩
        have hif : index_file ops s.2 g false = (none, s.2) :=
          index_file_unchanged_skips ops s.2 g doc hsome hhash
        have hstep : indexAllStep ops false s g =
            ({ s.1 with files_skipped := s.1.files_skipped + 1 }, s.2) := by
          rw [indexAllStep, hif]
        have hds_t : ∀ f ∈ t, docState ops (indexAllStep ops false s g).2 f := by
          intro f hf
          rw [hstep]
          exact hds f (List.mem_cons_of_mem g hf)
        have hstep1 : (indexAllStep ops false s g).1.chunks_created
            = s.1.chunks_created := by
          rw [indexAllStep, hif]
        have hstep2 : (indexAllStep ops false s g).1.files_skipped
            = s.1.files_skipped + 1 := by
          rw [indexAllStep, hif]
        have hstep3 : (indexAllStep ops false s g).1.files_processed
            = s.1.files_processed := by
          rw [indexAllStep, hif]
        rcases ih (indexAllStep ops false s g) hnd_t hds_t with ⟨h1, h2, h3⟩
        refine ⟨by rw [h1, hstep1], ?_, ?_⟩
        · rw [h2, hstep2, List.filter_cons]
          rw [if_pos (by simp [hch])]
          simp only [List.length_cons]
          omega
        · rw [h3, hstep3, List.filter_cons, if_neg (by simpa using hch)]

/-- C1 (amended: a file whose chunking yields zero fragments never
receives a Document — `index_file` returns before saving one — so it is
re-processed, not skipped, by every later run): a file whose stored
Document hash equals its content hash is skipped by `index_file` with
`force = false` with the store left untouched; and a second `index_all`
with `force = false` over an unchanged tree of distinct paths, starting
from an empty store, creates zero chunks, skips exactly the files whose
chunking produced fragments, and re-processes (with zero chunks) exactly
the files whose chunking produced none. -/
theorem index_idempotence_amended :
    (∀ (ops : IndexerOps) (d : IndexData) (file : FileEntry) (doc : Document),
      hmLookup d.documents file.relative_path = some doc →
      doc.hash = ops.hash file.content →
      index_file ops d file false = (none, d)) ∧
    (∀ (ops : IndexerOps) (files : List FileEntry),
      (files.map (fun f => f.relative_path)).Nodup →
      (index_all ops (index_all ops IndexData.default files false).2 files
          false).1.chunks_created = 0 ∧
      (index_all ops (index_all ops IndexData.default files false).2 files
          false).1.files_skipped
        = (files.filter (fun f => ¬ (ops.chunk f f.content).isEmpty)).length ∧
      (index_all ops (index_all ops IndexData.default files false).2 files
          false).1.files_processed
        = (files.filter (fun f => (ops.chunk f f.content).isEmpty)).length) := by
  constructor
  · intro ops d file doc h1 h2
    exact index_file_unchanged_skips ops d file doc h1 h2
  · intro ops files hnd
    have hds : ∀ f ∈ files,
        docState ops (index_all ops IndexData.default files false).2 f := by
      intro f hf
      refine run1_docState ops files
        ({ files_processed := 0, chunks_created := 0, files_skipped := 0,
           errors := [] }, IndexData.default) hnd ?_ f hf
      intro f' _
      rfl
    have hcounts := run2_counts ops files
      ({ files_processed := 0, chunks_created := 0, files_skipped := 0,
         errors := [] }, (index_all ops IndexData.default files false).2)
      hnd hds
    rcases hcounts with ⟨h1, h2, h3⟩
    refine ⟨?_, ?_, ?_⟩
    · simpa [index_all] using h1
    · simpa [index_all] using h2
    · simpa [index_all] using h3

/-- C1 counterexample: over a tree holding one empty file, the second
`index_all` run with `force = false` skips nothing — the file is
re-processed (zero chunks created), because the first run saved no
Document for it. -/
theorem index_all_zero_chunk_file_cex :
    (index_all zeroChunkOps
        (index_all zeroChunkOps IndexData.default [emptyFile] false).2
        [emptyFile] false).1.files_skipped = 0 ∧
    (index_all zeroChunkOps
        (index_all zeroChunkOps IndexData.default [emptyFile] false).2
        [emptyFile] false).1.files_processed = 1 ∧
    (index_all zeroChunkOps
        (index_all zeroChunkOps IndexData.default [emptyFile] false).2
        [emptyFile] false).1.chunks_created = 0 :=
  ⟨rfl, rfl, rfl⟩

/-- C8 (amended: the code accepts any listed name that STARTS WITH the
configured model, not only an exact match — the `"<model>:latest"`
disjunct is an instance of the prefix test): `health_check` succeeds
exactly when the provider is reachable, the model-listing request
succeeds and parses, and some listed model name starts with the
configured model or equals `"<model>:latest"`. -/
theorem health_check_ok_iff :
    ∀ (reachable statusSuccess : Bool) (tags : Option (List String))
      (model : String),
      health_check reachable statusSuccess tags model = Except.ok () ↔
        (reachable = true ∧ statusSuccess = true ∧
          ∃ models, tags = some models ∧
            ∃ m ∈ models, (strStarts m model = true ∨ m = model ++ ":latest")) := by
  intro reachable statusSuccess tags model
  cases reachable <;> cases statusSuccess <;> cases tags <;>
    simp [health_check, model_available, List.any_eq_true]
  rename_i models
  constructor
  · rintro ⟨x, hx, h⟩
    refine ⟨x, hx, ?_⟩
    cases hsw : strStarts x model with
    | true => exact Or.inl rfl
    | false => exact Or.inr (h hsw)
  · rintro ⟨x, hx, h⟩
    refine ⟨x, hx, fun hf => ?_⟩
    cases h with
    | inl hl => rw [hl] at hf; cases hf
    | inr hr => exact hr

/-- C8 counterexample: with configured model "llama" and the provider
listing only "llama2", the health check succeeds — the code's
prefix test accepts "llama2" — although "llama2" neither equals "llama"
nor equals "llama:latest", so the claim's exact-or-latest rule would
report the model unavailable. -/
theorem health_check_prefix_match_cex :
    health_check true true (some ["llama2"]) "llama" = Except.ok () ∧
    ¬ ("llama2" = "llama" ∨ "llama2" = "llama" ++ ":latest") := by
  constructor
  · rfl
  · decide
